import Mathlib

/-!
Shallow embedding of the 1D/3D simulation-grid specification module
(`tidy3d/components/grid/grid_spec.py`) over exact rationals.

Real numbers (numpy float64 in the source) are modelled as `ℚ`; numpy arrays
of boundary coordinates as `List ℚ`.  Each definition translates one function
of the source; fallible code paths (numpy `IndexError` on empty-array
indexing) are modelled with `Option`.
-/

/-- Modelled from the spec: the speed of light in vacuum in μm/s
(`C_0` of `tidy3d/constants.py`, which is outside the embedded source
file; the spec only says "speed-of-light", the numeric value
`2.99792458e14` is the physical constant in the units the module uses). -/
def C_0 : ℚ := 299792458000000

/-- `GridSpec1d._add_pml_to_bounds(num_layers, bounds)`:
if fewer than 2 boundaries, return unchanged; otherwise prepend
`num_layers.1` boundaries spaced by `bounds[1] - bounds[0]` and append
`num_layers.2` boundaries spaced by `bounds[-1] - bounds[-2]`.
`np.arange(a, 0, -1)` is `[a, a-1, ..., 1]` and `np.arange(1, b+1)` is
`[1, ..., b]`. -/
def addPmlToBounds (numLayers : ℕ × ℕ) (bounds : List ℚ) : List ℚ :=
  if bounds.length < 2 then bounds
  else
    let firstStep := bounds.getD 1 0 - bounds.getD 0 0
    let lastStep := bounds.getLastD 0 - bounds.getD (bounds.length - 2) 0
    let addLeft := (List.range numLayers.1).map
      (fun i => bounds.getD 0 0 - firstStep * ((numLayers.1 - i : ℕ) : ℚ))
    let addRight := (List.range numLayers.2).map
      (fun i => bounds.getLastD 0 + lastStep * ((i + 1 : ℕ) : ℚ))
    addLeft ++ bounds ++ addRight

/-- `np.argmin(np.abs(center - bound_coords))`: index of the first element
minimizing the absolute distance to `c` (0 on the empty list, where numpy
would raise). -/
def argminAbsIdx (c : ℚ) : List ℚ → ℕ
  | [] => 0
  | [_] => 0
  | x :: y :: rest =>
    let j := argminAbsIdx c (y :: rest)
    if |c - x| ≤ |c - (y :: rest).getD j 0| then 0 else j + 1

/-- The symmetry-folding block of `GridSpec1d.make_coords` (lines 70–75):
when `symmetry ≠ 0`, shift the sequence so the boundary nearest `center`
lands exactly on `center`, keep the boundaries `≥ center`, and prepend their
mirror image about `center` (excluding the center point itself,
`bound_coords[:0:-1]`). -/
def foldSymmetry (center : ℚ) (symmetry : ℤ) (bcs : List ℚ) : List ℚ :=
  if symmetry ≠ 0 then
    let pivot := bcs.getD (argminAbsIdx center bcs) 0
    let shifted := bcs.map (fun x => x + (center - pivot))
    let upper := shifted.filter (fun x => decide (center ≤ x))
    ((upper.drop 1).reverse.map (fun x => 2 * center - x)) ++ upper
  else bcs

/-- `GridSpec1d.make_coords`: derive the periodicity flag
(`sum(num_pml_layers) == 0`), call the strategy's `_make_coords_initial`
(abstracted here as the function `initial center size is_periodic`; the
`axis`/`structures`/`wavelength` arguments of the source are part of the
closure of `initial`), apply the symmetry fold when `symmetry ≠ 0`, then
add the PML layers. -/
def makeCoords (initial : ℚ → ℚ → Bool → List ℚ) (center size : ℚ)
    (symmetry : ℤ) (numPmlLayers : ℕ × ℕ) : List ℚ :=
  let isPeriodic : Bool := numPmlLayers.1 + numPmlLayers.2 == 0
  let bcs := initial center size isPeriodic
  let folded :=
    if symmetry ≠ 0 then
      let pivot := bcs.getD (argminAbsIdx center bcs) 0
      let shifted := bcs.map (fun x => x + (center - pivot))
      let upper := shifted.filter (fun x => decide (center ≤ x))
      ((upper.drop 1).reverse.map (fun x => 2 * center - x)) ++ upper
    else bcs
  addPmlToBounds numPmlLayers folded

/-- `UniformGrid._make_coords_initial(center, size)` for a grid with step
`dl`: `num_cells = max(ceil(size/dl), 1)`, snapped step
`size/num_cells` when `size > 0` else `dl`, boundaries
`center - size/2 + k * dl_snapped` for `k = 0..num_cells`. -/
def uniformMakeCoordsInitial (dl center size : ℚ) : List ℚ :=
  let numCells : ℕ := (max ⌈size / dl⌉ 1).toNat
  let dlSnapped := if size > 0 then size / (numCells : ℚ) else dl
  (List.range (numCells + 1)).map
    (fun k : ℕ => center - size / 2 + (k : ℚ) * dlSnapped)

/-- The low-edge repetition loop of `CustomGrid._make_coords_initial`
(line 250: `while bound_coords[0] - dl_min >= bound_min: insert at 0`):
given the current first boundary `x`, the list of boundaries the loop
prepends, in their final (increasing) order. -/
def extendLow (dl0 bmin : ℚ) (hdl : 0 < dl0) (x : ℚ) : List ℚ :=
  if bmin ≤ x - dl0 then extendLow dl0 bmin hdl (x - dl0) ++ [x - dl0] else []
termination_by (⌊(x - bmin) / dl0⌋).toNat
decreasing_by
  have h1 : (x - dl0 - bmin) / dl0 = (x - bmin) / dl0 - 1 := by
    field_simp
    ring
  have h2 : (1 : ℚ) ≤ (x - bmin) / dl0 := by
    rw [le_div_iff₀ hdl]
    linarith
  have h3 : ⌊(x - dl0 - bmin) / dl0⌋ = ⌊(x - bmin) / dl0⌋ - 1 := by
    rw [h1, Int.floor_sub_one]
  have h4 : (1 : ℤ) ≤ ⌊(x - bmin) / dl0⌋ := by
    exact Int.le_floor.mpr (by exact_mod_cast h2)
  omega

/-- The high-edge repetition loop of `CustomGrid._make_coords_initial`
(line 252: `while bound_coords[-1] + dl_max <= bound_max: append`):
given the current last boundary `x`, the list of boundaries the loop
appends, in order. -/
def extendHigh (dlN bmax : ℚ) (hdl : 0 < dlN) (x : ℚ) : List ℚ :=
  if x + dlN ≤ bmax then (x + dlN) :: extendHigh dlN bmax hdl (x + dlN) else []
termination_by (⌊(bmax - x) / dlN⌋).toNat
decreasing_by
  have h1 : (bmax - (x + dlN)) / dlN = (bmax - x) / dlN - 1 := by
    field_simp
    ring
  have h2 : (1 : ℚ) ≤ (bmax - x) / dlN := by
    rw [le_div_iff₀ hdl]
    linarith
  have h3 : ⌊(bmax - (x + dlN)) / dlN⌋ = ⌊(bmax - x) / dlN⌋ - 1 := by
    rw [h1, Int.floor_sub_one]
  have h4 : (1 : ℤ) ≤ ⌊(bmax - x) / dlN⌋ := by
    exact Int.le_floor.mpr (by exact_mod_cast h2)
  omega

/-- Lines 234–245 of `CustomGrid._make_coords_initial`: cumulative sums of
the step list prefixed with `0.0`, shifted so the midpoint of the span is
at `center`, then chopped to `[center - size/2, center + size/2]`
(first the `≤ bound_max` filter, then the `≥ bound_min` filter). -/
def clippedCoords (dl : List ℚ) (center size : ℚ) : List ℚ :=
  let bc0 := List.scanl (· + ·) 0 dl
  let shifted := bc0.map (fun x => x + (center - bc0.getLastD 0 / 2))
  let bmax := center + size / 2
  let bmin := center - size / 2
  (shifted.filter (fun x => decide (x ≤ bmax))).filter (fun x => decide (bmin ≤ x))

/-- `CustomGrid._make_coords_initial(center, size)` for step list `dl`
(all entries positive, as `pydantic` enforces element-wise at
construction).  Returns `none` where the source raises `IndexError`:
`dl[0]` on an empty step list (line 248), or `bound_coords[0]` in the
`while` condition when the clipped sequence is empty (line 250). -/
def customMakeCoordsInitial (dl : List ℚ) (hpos : ∀ d ∈ dl, 0 < d)
    (center size : ℚ) : Option (List ℚ) :=
  match dl, hpos with
  | [], _ => none
  | d0 :: rest, hpos =>
    match clippedCoords (d0 :: rest) center size with
    | [] => none
    | y :: ys =>
      let bmin := center - size / 2
      let bmax := center + size / 2
      let dlN := (d0 :: rest).getLast (by simp)
      some
        (extendLow d0 bmin (hpos d0 (by simp)) y ++ (y :: ys) ++
          extendHigh dlN bmax (hpos dlN (List.getLast_mem _)) ((y :: ys).getLast (by simp)))

/-- Construction-time validation of `CustomGrid.dl`:
`List[pd.PositiveFloat]` checks each element is positive (an empty list
satisfies the annotation). -/
def customGridValid (dl : List ℚ) : Bool :=
  dl.all (fun d => decide (0 < d))

/-- The three per-axis strategy variants of `GridType`, with the data
relevant at the `GridSpec` level. -/
inductive GridKind where
  | uniform (dl : ℚ) : GridKind
  | custom (dl : List ℚ) : GridKind
  | auto : GridKind
deriving DecidableEq

/-- `isinstance(mesh, AutoGrid)`. -/
def GridKind.isAuto : GridKind → Bool
  | .auto => true
  | _ => false

/-- The errors raised by `GridSpec.get_wavelength` (both are `SetupError`
in the source, with distinct messages). -/
inductive SetupErr where
  | noSources : SetupErr
  | inconsistentFreqs : SetupErr
deriving DecidableEq

/-- `GridSpec`: one strategy per axis plus an optional explicit
wavelength. -/
structure GridSpecM where
  gridX : GridKind
  gridY : GridKind
  gridZ : GridKind
  wavelength : Option ℚ
deriving DecidableEq

/-- `GridSpec.auto_grid_used`: true if any of the three axes uses the Auto
strategy. -/
def GridSpecM.autoGridUsed (g : GridSpecM) : Bool :=
  g.gridX.isAuto || g.gridY.isAuto || g.gridZ.isAuto

/-- `np.isclose(a, b)` with numpy's defaults
`rtol = 1e-5`, `atol = 1e-8`: `|a - b| ≤ atol + rtol * |b|`. -/
def npIsClose (a b : ℚ) : Bool :=
  decide (|a - b| ≤ 1 / 100000000 + (1 / 100000) * |b|)

/-- `GridSpec.get_wavelength(sources)`, with each source abstracted to its
central frequency `source.source_time.freq0`.  Returns the stored
wavelength unchanged when it is set or no axis is Auto; otherwise requires
a non-empty, frequency-consistent source list and returns
`C_0 / freqs[0]`. -/
def GridSpecM.getWavelength (g : GridSpecM) (freqs : List ℚ) :
    Except SetupErr (Option ℚ) :=
  if g.wavelength.isSome || !g.autoGridUsed then .ok g.wavelength
  else if freqs.length = 0 then .error .noSources
  else if 0 < freqs.length ∧ ¬(∀ f ∈ freqs, npIsClose f (freqs.headD 0)) then
    .error .inconsistentFreqs
  else .ok (some (C_0 / freqs.headD 0))

/-- C5: the per-axis build `make_coords` is exactly the composition of the
strategy's initial boundary generation, the symmetry fold (a no-op unless
the symmetry flag is nonzero), and the PML extension, in this order; and the
periodicity flag passed to the initial generation is true iff both PML layer
counts are zero. -/
theorem makeCoords_pipeline (initial : ℚ → ℚ → Bool → List ℚ) (c s : ℚ)
    (sym : ℤ) (npml : ℕ × ℕ) :
    makeCoords initial c s sym npml =
      addPmlToBounds npml
        (foldSymmetry c sym (initial c s (npml.1 + npml.2 == 0))) ∧
    ((npml.1 + npml.2 == 0) = true ↔ npml.1 = 0 ∧ npml.2 = 0) := by
  constructor
  · unfold makeCoords foldSymmetry
    by_cases h : sym = 0 <;> simp [h]
  · simp [Nat.add_eq_zero]

/-- C4: the PML extension with counts `(a, b)` on a sequence of at least two
boundaries yields exactly `a + b` additional boundaries: `a` prepended at
uniform spacing `bounds[1] - bounds[0]`, `b` appended at uniform spacing
`bounds[-1] - bounds[-2]`, with the original sequence unchanged in the
middle; on fewer than two boundaries it is a no-op; and counts `(2, 3)`
applied to `[0, 1, 2]` give `[-2, -1, 0, 1, 2, 3, 4, 5]`. -/
theorem addPmlToBounds_spec (a b : ℕ) (bounds : List ℚ) :
    (2 ≤ bounds.length →
      (addPmlToBounds (a, b) bounds).length = a + bounds.length + b ∧
      addPmlToBounds (a, b) bounds =
        (List.range a).map
          (fun i => bounds.getD 0 0 -
            (bounds.getD 1 0 - bounds.getD 0 0) * ((a - i : ℕ) : ℚ))
        ++ bounds ++
        (List.range b).map
          (fun i => bounds.getLastD 0 +
            (bounds.getLastD 0 - bounds.getD (bounds.length - 2) 0) *
              ((i + 1 : ℕ) : ℚ))) ∧
    (bounds.length < 2 → addPmlToBounds (a, b) bounds = bounds) ∧
    addPmlToBounds (2, 3) ([0, 1, 2] : List ℚ) = [-2, -1, 0, 1, 2, 3, 4, 5] := by
  refine ⟨fun h => ?_, fun h => ?_, ?_⟩
  · have h2 : ¬ bounds.length < 2 := Nat.not_lt.mpr h
    constructor
    · simp only [addPmlToBounds, h2, if_false, List.length_append,
        List.length_map, List.length_range]
    · simp [addPmlToBounds, h2]
  · simp [addPmlToBounds, h]
  · norm_num [addPmlToBounds, List.range_succ, List.getD]

/-- C3: wavelength resolution policy of `GridSpec.get_wavelength`:
an explicit wavelength, or the absence of any Auto axis, returns the stored
(possibly absent) value unchanged regardless of the sources; otherwise an
empty source list is a configuration error, source center frequencies that
do not all agree within the `np.isclose` tolerance are a configuration
error, and agreeing sources resolve to speed-of-light divided by the first
source's center frequency. -/
theorem getWavelength_spec :
    (∀ (g : GridSpecM) (freqs : List ℚ),
        g.wavelength.isSome = true ∨ g.autoGridUsed = false →
        g.getWavelength freqs = .ok g.wavelength) ∧
    (∀ g : GridSpecM, g.wavelength = none → g.autoGridUsed = true →
        g.getWavelength [] = .error .noSources) ∧
    (∀ (g : GridSpecM) (f : ℚ) (fs : List ℚ), g.wavelength = none →
        g.autoGridUsed = true → ¬(∀ x ∈ f :: fs, npIsClose x f = true) →
        g.getWavelength (f :: fs) = .error .inconsistentFreqs) ∧
    (∀ (g : GridSpecM) (f : ℚ) (fs : List ℚ), g.wavelength = none →
        g.autoGridUsed = true → (∀ x ∈ f :: fs, npIsClose x f = true) →
        g.getWavelength (f :: fs) = .ok (some (C_0 / f))) := by
  refine ⟨fun g freqs h => ?_, fun g h1 h2 => ?_, fun g f fs h1 h2 h3 => ?_,
    fun g f fs h1 h2 h3 => ?_⟩
  · rcases h with h | h <;> simp [GridSpecM.getWavelength, h]
  · simp [GridSpecM.getWavelength, h1, h2]
  · simp only [GridSpecM.getWavelength, h1, h2, List.headD_cons]
    rw [if_neg (by simp), if_neg (by simp), if_pos]
    · exact ⟨by simp, h3⟩
  · simp only [GridSpecM.getWavelength, h1, h2, List.headD_cons]
    rw [if_neg (by simp), if_neg (by simp), if_neg]
    rintro ⟨-, hn⟩
    exact hn h3

/-- C3 witness: concrete instances of each branch of the wavelength policy:
an all-Auto spec with explicit wavelength 2 returns it for any sources; with
no wavelength, zero sources fail, the sources `[1, 2]` fail the closeness
check, and the single source `[2]` resolves to `C_0 / 2`. -/
theorem getWavelength_spec_witness :
    GridSpecM.getWavelength ⟨.auto, .auto, .auto, some 2⟩ [5] = .ok (some 2) ∧
    GridSpecM.getWavelength ⟨.auto, .auto, .auto, none⟩ [] =
      .error .noSources ∧
    GridSpecM.getWavelength ⟨.auto, .auto, .auto, none⟩ [1, 2] =
      .error .inconsistentFreqs ∧
    GridSpecM.getWavelength ⟨.auto, .auto, .auto, none⟩ [2] =
      .ok (some (C_0 / 2)) :=
  ⟨getWavelength_spec.1 ⟨.auto, .auto, .auto, some 2⟩ [5] (Or.inl rfl),
   getWavelength_spec.2.1 ⟨.auto, .auto, .auto, none⟩ rfl rfl,
   getWavelength_spec.2.2.1 ⟨.auto, .auto, .auto, none⟩ 1 [2] rfl rfl
     (by
       intro hall
       have hc := hall 2 (by simp)
       simp only [npIsClose, decide_eq_true_eq] at hc
       norm_num at hc),
   getWavelength_spec.2.2.2 ⟨.auto, .auto, .auto, none⟩ 2 [] rfl rfl
     (by
       intro x hx
       simp only [List.mem_cons, List.not_mem_nil, or_false] at hx
       subst hx
       simp only [npIsClose, decide_eq_true_eq]
       norm_num)⟩

/-- C8 counterexample: an empty Custom step list is NOT rejected at
construction time: the element-wise positivity check of
`dl: List[pd.PositiveFloat]` is vacuously satisfied by `[]`, so
construction succeeds; the failure instead happens at build time, where the
initial-coords computation produces no boundary sequence (`dl[0]` raises). -/
theorem customGrid_nil_accepted_at_construction :
    customGridValid [] = true ∧
    customMakeCoordsInitial [] (by simp) 0 1 = none :=
  ⟨rfl, rfl⟩

/-- C8 amended: for every center and size, constructing a Custom strategy
with empty `dl` succeeds, and the subsequent build-time initial-coords
computation fails (returns no boundary sequence). -/
theorem customGrid_nil_fails_at_build (center size : ℚ) :
    customGridValid [] = true ∧
    customMakeCoordsInitial [] (by simp) center size = none :=
  ⟨rfl, rfl⟩

/-- C9: a Uniform strategy with positive step `dl` and domain size exactly 0
returns exactly the two boundaries `[center, center + dl]`: one cell of
width `dl`, entirely on the positive side of the center (hence neither of
zero extent nor centered on the domain center). -/
theorem uniform_zero_size_cell (dl center : ℚ) (hdl : 0 < dl) :
    uniformMakeCoordsInitial dl center 0 = [center, center + dl] ∧
    center < center + dl ∧ (center + dl) - center = dl := by
  refine ⟨?_, by linarith, by ring⟩
  simp [uniformMakeCoordsInitial, List.range_succ]

/-- C9 witness: the zero-size Uniform grid at `dl = 1`, `center = 0`. -/
theorem uniform_zero_size_cell_witness :
    (0 : ℚ) < 1 ∧ uniformMakeCoordsInitial 1 0 0 = [0, 0 + 1] :=
  ⟨by norm_num, (uniform_zero_size_cell 1 0 (by norm_num)).1⟩

/-- C2 counterexample: for domain size exactly 0 the Uniform boundary
sequence does not span the requested size: with `dl = 1`, `center = 0` the
result is `[0, 1]`, whose span is `1 ≠ 0`. -/
theorem uniform_zero_size_span_counterexample :
    uniformMakeCoordsInitial 1 0 0 = [0, 1] ∧
    ¬((uniformMakeCoordsInitial 1 0 0).getLastD 0 -
        (uniformMakeCoordsInitial 1 0 0).headD 0 = 0) := by
  constructor
  · have h := (uniform_zero_size_cell 1 0 (by norm_num)).1
    simpa using h
  · have h := (uniform_zero_size_cell 1 0 (by norm_num)).1
    rw [h]
    norm_num

/-- C2 amended: for positive step `dl` and positive domain size `size`, the
Uniform boundary sequence has exactly `max(ceil(size/dl), 1)` intervals of
equal width, at least 2 points, first boundary `center - size/2`, and spans
exactly `size`.  (For `size = 0` the sequence spans `dl`, not `0`.) -/
theorem uniform_coords_spec (dl center size : ℚ) (hdl : 0 < dl)
    (hs : 0 < size) :
    (uniformMakeCoordsInitial dl center size).length =
      (max ⌈size / dl⌉ 1).toNat + 1 ∧
    2 ≤ (uniformMakeCoordsInitial dl center size).length ∧
    (uniformMakeCoordsInitial dl center size).headD 0 = center - size / 2 ∧
    (uniformMakeCoordsInitial dl center size).getLastD 0 -
      (uniformMakeCoordsInitial dl center size).headD 0 = size ∧
    ∀ i : ℕ, i + 1 < (uniformMakeCoordsInitial dl center size).length →
      (uniformMakeCoordsInitial dl center size).getD (i + 1) 0 -
        (uniformMakeCoordsInitial dl center size).getD i 0 =
        size / (((max ⌈size / dl⌉ 1).toNat : ℕ) : ℚ) := by
  have hn1 : 1 ≤ (max ⌈size / dl⌉ 1).toNat := by
    have := le_max_right ⌈size / dl⌉ 1
    omega
  have hcast : (((max ⌈size / dl⌉ 1).toNat : ℕ) : ℚ) ≠ 0 := by
    exact_mod_cast Nat.one_le_iff_ne_zero.mp hn1
  set n : ℕ := (max ⌈size / dl⌉ 1).toNat with hn
  set f : ℕ → ℚ := fun k => center - size / 2 + (k : ℚ) * (size / (n : ℚ))
    with hf
  have hunf : uniformMakeCoordsInitial dl center size =
      (List.range (n + 1)).map f := by
    simp [uniformMakeCoordsInitial, if_pos hs, hf, hn]
  rw [hunf]
  have hhead : ((List.range (n + 1)).map f).headD 0 = center - size / 2 := by
    rw [List.range_succ_eq_map]
    simp [hf]
  have hlast : ((List.range (n + 1)).map f).getLastD 0 = f n := by
    rw [List.range_succ, List.map_append]
    simp only [List.map_cons, List.map_nil]
    exact List.getLastD_concat _ _ _
  have hns : (n : ℚ) * (size / (n : ℚ)) = size := by
    field_simp
  refine ⟨by simp, by simp; omega, hhead, ?_, ?_⟩
  · rw [hlast, hhead]
    simp only [hf]
    rw [hns]
    ring
  · intro i hi
    simp only [List.length_map, List.length_range] at hi
    have hi1 : i + 1 < ((List.range (n + 1)).map f).length := by
      simp [hi]
    have hi0 : i < ((List.range (n + 1)).map f).length := by
      simp
      omega
    rw [List.getD_eq_getElem?_getD, List.getElem?_eq_getElem hi1,
      List.getD_eq_getElem?_getD, List.getElem?_eq_getElem hi0]
    simp only [Option.getD_some, List.getElem_map, List.getElem_range, hf]
    push_cast
    ring

/-- C2 witness: `dl = 1`, `center = 0`, `size = 1`: the first boundary is
`0 - 1/2`. -/
theorem uniform_coords_spec_witness :
    (0 : ℚ) < 1 ∧ (uniformMakeCoordsInitial 1 0 1).headD 0 = 0 - 1 / 2 :=
  ⟨by norm_num, (uniform_coords_spec 1 0 1 (by norm_num) (by norm_num)).2.2.1⟩

theorem argminAbsIdx_lt_length (c : ℚ) :
    ∀ xs : List ℚ, xs ≠ [] → argminAbsIdx c xs < xs.length
  | [], h => absurd rfl h
  | [_], _ => by simp [argminAbsIdx]
  | x :: y :: rest, _ => by
    have ih := argminAbsIdx_lt_length c (y :: rest) (by simp)
    simp only [argminAbsIdx]
    split
    · simp
    · simp only [List.length_cons] at ih ⊢
      omega

theorem argminAbsIdx_min (c : ℚ) :
    ∀ xs : List ℚ, ∀ x ∈ xs, |c - xs.getD (argminAbsIdx c xs) 0| ≤ |c - x|
  | [], x, hx => absurd hx (List.not_mem_nil x)
  | [a], x, hx => by
    simp only [List.mem_singleton] at hx
    subst hx
    simp [argminAbsIdx]
  | a :: b :: rest, x, hx => by
    have ih := argminAbsIdx_min c (b :: rest)
    simp only [argminAbsIdx]
    split
    · rename_i hcond
      simp only [List.getD_cons_zero]
      rcases List.mem_cons.mp hx with h | h
      · subst h
        exact le_refl _
      · exact le_trans hcond (ih x h)
    · rename_i hcond
      simp only [List.getD_cons_succ]
      rcases List.mem_cons.mp hx with h | h
      · subst h
        exact le_of_lt (lt_of_not_le hcond)
      · exact ih x h

theorem filter_false_true_append (p : ℚ → Bool) (A B : List ℚ)
    (hA : ∀ a ∈ A, p a = false) (hB : ∀ b ∈ B, p b = true) :
    (A ++ B).filter p = B := by
  rw [List.filter_append, List.filter_eq_nil_iff.mpr, List.filter_eq_self.mpr hB,
    List.nil_append]
  intro a ha
  simp [hA a ha]

theorem foldSymmetry_shape (c : ℚ) (sym : ℤ) (hsym : sym ≠ 0) (xs : List ℚ)
    (hne : xs ≠ []) (hsort : List.Sorted (· < ·) xs) :
    ∃ t : List ℚ, List.Sorted (· < ·) (c :: t) ∧
      foldSymmetry c sym xs =
        (t.reverse.map (fun x => 2 * c - x)) ++ c :: t := by
  have hi : argminAbsIdx c xs < xs.length := argminAbsIdx_lt_length c xs hne
  set i := argminAbsIdx c xs with hidef
  set shifted := xs.map (fun x => x + (c - xs.getD i 0)) with hshift
  have hslen : shifted.length = xs.length := by simp [hshift]
  have hsorted : List.Sorted (· < ·) shifted := by
    exact List.Pairwise.map _ (fun a b hab => add_lt_add_right hab _) hsort
  have hgetD : xs.getD i 0 = xs[i] := by
    rw [List.getD_eq_getElem?_getD, List.getElem?_eq_getElem hi, Option.getD_some]
  have hi2 : i < shifted.length := by omega
  have hic : shifted[i] = c := by
    simp only [hshift, List.getElem_map]
    linarith [hgetD]
  have hsplit : shifted = shifted.take i ++ c :: shifted.drop (i + 1) := by
    conv_lhs => rw [← List.take_append_drop i shifted]
    rw [List.drop_eq_getElem_cons (by omega), hic]
  refine ⟨shifted.drop (i + 1), ?_, ?_⟩
  · have := hsplit ▸ hsorted
    exact (List.pairwise_append.mp this).2.1
  · have hpair := hsplit ▸ hsorted
    have hAlt : ∀ a ∈ shifted.take i, a < c :=
      fun a ha => (List.pairwise_append.mp hpair).2.2 a ha c (by simp)
    have hfilter : shifted.filter (fun x => decide (c ≤ x)) =
        c :: shifted.drop (i + 1) := by
      conv_lhs => rw [hsplit]
      apply filter_false_true_append
      · intro a ha
        simp only [decide_eq_false_iff_not, not_le]
        exact hAlt a ha
      · intro b hb
        simp only [decide_eq_true_eq]
        rcases List.mem_cons.mp hb with h | h
        · exact h ▸ le_refl c
        · exact le_of_lt
            (((List.sorted_cons.mp (List.pairwise_append.mp hpair).2.1).1) b h)
    simp only [foldSymmetry, if_pos hsym]
    rw [← hshift, hfilter]
    simp

/-- C6: for a non-empty strictly increasing boundary sequence and nonzero
symmetry flag, the folded sequence is exactly its own mirror image under
`x ↦ 2*center - x` and contains the center point exactly once (no
duplication); with flag zero the fold leaves the sequence unchanged. -/
theorem foldSymmetry_mirror (c : ℚ) (sym : ℤ) (xs : List ℚ) (hne : xs ≠ [])
    (hsort : List.Sorted (· < ·) xs) :
    (sym ≠ 0 →
      ((foldSymmetry c sym xs).map (fun x => 2 * c - x)).reverse =
        foldSymmetry c sym xs ∧
      (foldSymmetry c sym xs).count c = 1) ∧
    foldSymmetry c 0 xs = xs := by
  constructor
  · intro hsym
    obtain ⟨t, hst, hR⟩ := foldSymmetry_shape c sym hsym xs hne hsort
    have htc : ∀ y ∈ t, c < y := (List.sorted_cons.mp hst).1
    have hff : ∀ x : ℚ, 2 * c - (2 * c - x) = x := fun x => by ring
    constructor
    · have hmapmap : (t.map (fun x => 2 * c - x)).map (fun x => 2 * c - x) = t := by
        rw [List.map_map]
        have hcomp : ((fun x : ℚ => 2 * c - x) ∘ fun x : ℚ => 2 * c - x) = id := by
          funext x
          simp only [Function.comp_apply, id_eq]
          ring
        rw [hcomp, List.map_id]
      have h2 : 2 * c - c = c := by ring
      rw [hR]
      simp only [List.map_append, List.map_cons, List.map_reverse,
        List.reverse_append, List.reverse_reverse, List.reverse_cons]
      rw [hmapmap]
      simp [h2, List.append_assoc]
    · rw [hR]
      rw [List.count_append]
      have h0 : (t.reverse.map (fun x => 2 * c - x)).count c = 0 := by
        rw [List.count_eq_zero]
        intro hmem
        obtain ⟨y, hy, hyc⟩ := List.mem_map.mp hmem
        have h1 := htc y (List.mem_reverse.mp hy)
        have h2 : y = c := by linarith
        exact absurd (h2 ▸ h1) (lt_irrefl c)
      have h1 : (c :: t).count c = 1 := by
        rw [List.count_cons_self, List.count_eq_zero.mpr]
        intro hmem
        exact absurd rfl (ne_of_gt (htc c hmem))
      rw [h0, h1]
  · simp [foldSymmetry]

/-- C6 witness: the sequence `[-1, 0, 2]` with center `0` and flag `1`. -/
theorem foldSymmetry_mirror_witness :
    ([-1, 0, 2] : List ℚ) ≠ [] ∧ List.Sorted (· < ·) ([-1, 0, 2] : List ℚ) ∧
    foldSymmetry 0 0 ([-1, 0, 2] : List ℚ) = [-1, 0, 2] :=
  ⟨by simp, by norm_num [List.sorted_cons],
   (foldSymmetry_mirror 0 1 [-1, 0, 2] (by simp)
     (by norm_num [List.sorted_cons])).2⟩

/-- C7: the symmetry fold is idempotent: for a non-empty strictly increasing
boundary sequence and nonzero flag, folding an already-folded sequence with
the same center and flag returns it unchanged. -/
theorem foldSymmetry_idempotent (c : ℚ) (sym : ℤ) (hsym : sym ≠ 0)
    (xs : List ℚ) (hne : xs ≠ []) (hsort : List.Sorted (· < ·) xs) :
    foldSymmetry c sym (foldSymmetry c sym xs) = foldSymmetry c sym xs := by
  obtain ⟨t, hst, hR⟩ := foldSymmetry_shape c sym hsym xs hne hsort
  have htc : ∀ y ∈ t, c < y := (List.sorted_cons.mp hst).1
  set A := t.reverse.map (fun x => 2 * c - x) with hA
  set R := A ++ c :: t with hRdef
  rw [hR]
  have hcR : c ∈ R := by simp [hRdef]
  have hpiv : R.getD (argminAbsIdx c R) 0 = c := by
    have := argminAbsIdx_min c R c hcR
    simp only [sub_self, abs_zero] at this
    have h0 : |c - R.getD (argminAbsIdx c R) 0| = 0 := le_antisymm this (abs_nonneg _)
    have := abs_eq_zero.mp h0
    linarith
  have hAlt : ∀ a ∈ A, a < c := by
    intro a ha
    obtain ⟨y, hy, hyc⟩ := List.mem_map.mp (hA ▸ ha)
    have hcy := htc y (List.mem_reverse.mp hy)
    rw [← hyc]
    linarith
  have hfilter : R.filter (fun x => decide (c ≤ x)) = c :: t := by
    rw [hRdef]
    apply filter_false_true_append
    · intro a ha
      simp only [decide_eq_false_iff_not, not_le]
      exact hAlt a ha
    · intro b hb
      simp only [decide_eq_true_eq]
      rcases List.mem_cons.mp hb with h | h
      · exact h ▸ le_refl c
      · exact le_of_lt (htc b h)
  simp only [foldSymmetry, if_pos hsym]
  rw [hpiv, sub_self]
  have hmapid : R.map (fun x => x + 0) = R := by
    rw [List.map_congr_left (fun x _ => add_zero x)]
    exact List.map_id' R
  rw [hmapid, hfilter]
  simp [hRdef, hA]

/-- C7 witness: the sequence `[-1, 0, 2]` with center `0` and flag `1`. -/
theorem foldSymmetry_idempotent_witness :
    (1 : ℤ) ≠ 0 ∧ ([-1, 0, 2] : List ℚ) ≠ [] ∧
    foldSymmetry 0 1 (foldSymmetry 0 1 ([-1, 0, 2] : List ℚ)) =
      foldSymmetry 0 1 ([-1, 0, 2] : List ℚ) :=
  ⟨by decide, by simp,
   foldSymmetry_idempotent 0 1 (by decide) [-1, 0, 2] (by simp)
     (by norm_num [List.sorted_cons])⟩

theorem extendLow_eq (dl0 bmin : ℚ) (hdl : 0 < dl0) (x : ℚ) :
    ∃ n : ℕ, extendLow dl0 bmin hdl x =
      ((List.range n).map (fun i : ℕ => x - ((i : ℚ) + 1) * dl0)).reverse := by
  induction x using extendLow.induct dl0 bmin hdl with
  | case1 x hc ih =>
    obtain ⟨n, hn⟩ := ih
    refine ⟨n + 1, ?_⟩
    rw [extendLow, if_pos hc, hn]
    rw [List.range_succ_eq_map, List.map_cons, List.reverse_cons, List.map_map]
    congr 1
    · congr 1
      refine List.map_congr_left (fun i _ => ?_)
      simp only [Function.comp_apply]
      push_cast
      ring
    · norm_num
  | case2 x hc =>
    refine ⟨0, ?_⟩
    rw [extendLow, if_neg hc]
    simp

theorem extendLow_mem (dl0 bmin : ℚ) (hdl : 0 < dl0) (x : ℚ) :
    ∀ y ∈ extendLow dl0 bmin hdl x, bmin ≤ y ∧ y < x := by
  induction x using extendLow.induct dl0 bmin hdl with
  | case1 x hc ih =>
    intro y hy
    rw [extendLow, if_pos hc] at hy
    rcases List.mem_append.mp hy with h | h
    · obtain ⟨h1, h2⟩ := ih y h
      exact ⟨h1, by linarith⟩
    · simp only [List.mem_singleton] at h
      subst h
      exact ⟨hc, by linarith⟩
  | case2 x hc =>
    intro y hy
    rw [extendLow, if_neg hc] at hy
    simp at hy

theorem extendLow_headD (dl0 bmin : ℚ) (hdl : 0 < dl0) (x : ℚ) :
    (extendLow dl0 bmin hdl x).headD x - dl0 < bmin := by
  induction x using extendLow.induct dl0 bmin hdl with
  | case1 x hc ih =>
    rw [extendLow, if_pos hc]
    cases hE : extendLow dl0 bmin hdl (x - dl0) with
    | nil =>
      rw [hE] at ih
      simpa using ih
    | cons a l =>
      rw [hE] at ih
      simpa using ih
  | case2 x hc =>
    rw [extendLow, if_neg hc]
    simp only [List.headD_nil]
    linarith [lt_of_not_le hc]

theorem extendLow_length (dl0 bmin : ℚ) (hdl : 0 < dl0) (x : ℚ) :
    bmin ≤ x → (extendLow dl0 bmin hdl x).length = (⌊(x - bmin) / dl0⌋).toNat := by
  induction x using extendLow.induct dl0 bmin hdl with
  | case1 x hc ih =>
    intro _
    rw [extendLow, if_pos hc]
    rw [List.length_append, List.length_singleton, ih hc]
    have h1 : (x - dl0 - bmin) / dl0 = (x - bmin) / dl0 - 1 := by
      field_simp
      ring
    have h2 : (1 : ℚ) ≤ (x - bmin) / dl0 := by
      rw [le_div_iff₀ hdl]
      linarith
    have h3 : ⌊(x - dl0 - bmin) / dl0⌋ = ⌊(x - bmin) / dl0⌋ - 1 := by
      rw [h1, Int.floor_sub_one]
    have h4 : (1 : ℤ) ≤ ⌊(x - bmin) / dl0⌋ := Int.le_floor.mpr (by exact_mod_cast h2)
    rw [h3]
    omega
  | case2 x hc =>
    intro hx
    rw [extendLow, if_neg hc]
    have h0 : (0 : ℚ) ≤ (x - bmin) / dl0 := div_nonneg (by linarith) (le_of_lt hdl)
    have h1 : (x - bmin) / dl0 < 1 := by
      rw [div_lt_one hdl]
      linarith [lt_of_not_le hc]
    have hfl : ⌊(x - bmin) / dl0⌋ = 0 := Int.floor_eq_zero_iff.mpr ⟨h0, h1⟩
    simp [hfl]

theorem extendHigh_eq (dlN bmax : ℚ) (hdl : 0 < dlN) (x : ℚ) :
    ∃ n : ℕ, extendHigh dlN bmax hdl x =
      (List.range n).map (fun i : ℕ => x + ((i : ℚ) + 1) * dlN) := by
  induction x using extendHigh.induct dlN bmax hdl with
  | case1 x hc ih =>
    obtain ⟨n, hn⟩ := ih
    refine ⟨n + 1, ?_⟩
    rw [extendHigh, if_pos hc, hn]
    rw [List.range_succ_eq_map, List.map_cons, List.map_map]
    congr 1
    · norm_num
    · refine List.map_congr_left (fun i _ => ?_)
      simp only [Function.comp_apply]
      push_cast
      ring
  | case2 x hc =>
    refine ⟨0, ?_⟩
    rw [extendHigh, if_neg hc]
    simp

theorem extendHigh_mem (dlN bmax : ℚ) (hdl : 0 < dlN) (x : ℚ) :
    ∀ y ∈ extendHigh dlN bmax hdl x, x < y ∧ y ≤ bmax := by
  induction x using extendHigh.induct dlN bmax hdl with
  | case1 x hc ih =>
    intro y hy
    rw [extendHigh, if_pos hc] at hy
    rcases List.mem_cons.mp hy with h | h
    · subst h
      exact ⟨by linarith, hc⟩
    · obtain ⟨h1, h2⟩ := ih y h
      exact ⟨by linarith, h2⟩
  | case2 x hc =>
    intro y hy
    rw [extendHigh, if_neg hc] at hy
    simp at hy

theorem extendHigh_getLastD (dlN bmax : ℚ) (hdl : 0 < dlN) (x : ℚ) :
    bmax < (extendHigh dlN bmax hdl x).getLastD x + dlN := by
  induction x using extendHigh.induct dlN bmax hdl with
  | case1 x hc ih =>
    rw [extendHigh, if_pos hc, List.getLastD_cons]
    exact ih
  | case2 x hc =>
    rw [extendHigh, if_neg hc]
    simp only [List.getLastD_nil]
    linarith [lt_of_not_le hc]

theorem extendHigh_length (dlN bmax : ℚ) (hdl : 0 < dlN) (x : ℚ) :
    x ≤ bmax → (extendHigh dlN bmax hdl x).length = (⌊(bmax - x) / dlN⌋).toNat := by
  induction x using extendHigh.induct dlN bmax hdl with
  | case1 x hc ih =>
    intro _
    rw [extendHigh, if_pos hc]
    rw [List.length_cons, ih hc]
    have h1 : (bmax - (x + dlN)) / dlN = (bmax - x) / dlN - 1 := by
      field_simp
      ring
    have h2 : (1 : ℚ) ≤ (bmax - x) / dlN := by
      rw [le_div_iff₀ hdl]
      linarith
    have h3 : ⌊(bmax - (x + dlN)) / dlN⌋ = ⌊(bmax - x) / dlN⌋ - 1 := by
      rw [h1, Int.floor_sub_one]
    have h4 : (1 : ℤ) ≤ ⌊(bmax - x) / dlN⌋ := Int.le_floor.mpr (by exact_mod_cast h2)
    rw [h3]
    omega
  | case2 x hc =>
    intro hx
    rw [extendHigh, if_neg hc]
    have h0 : (0 : ℚ) ≤ (bmax - x) / dlN := div_nonneg (by linarith) (le_of_lt hdl)
    have h1 : (bmax - x) / dlN < 1 := by
      rw [div_lt_one hdl]
      linarith [lt_of_not_le hc]
    have hfl : ⌊(bmax - x) / dlN⌋ = 0 := Int.floor_eq_zero_iff.mpr ⟨h0, h1⟩
    simp [hfl]

theorem headD_append_cons (A : List ℚ) (y : ℚ) (B : List ℚ) (d : ℚ) :
    (A ++ y :: B).headD d = A.headD y := by
  cases A <;> simp

theorem getLastD_append_cons (A : List ℚ) (z : ℚ) (B : List ℚ) :
    ∀ d : ℚ, (A ++ z :: B).getLastD d = (z :: B).getLastD d := by
  induction A with
  | nil => intro d; rfl
  | cons a A ih =>
    intro d
    simp only [List.cons_append, List.getLastD_cons]
    rw [ih a]
    simp only [List.getLastD_cons]

theorem clippedCoords_mem (dl : List ℚ) (c s : ℚ) :
    ∀ z ∈ clippedCoords dl c s, c - s / 2 ≤ z ∧ z ≤ c + s / 2 := by
  intro z hz
  simp only [clippedCoords] at hz
  rw [List.mem_filter] at hz
  obtain ⟨hz1, hz2⟩ := hz
  rw [List.mem_filter] at hz1
  obtain ⟨_, hz3⟩ := hz1
  simp only [decide_eq_true_eq] at hz2 hz3
  exact ⟨hz2, hz3⟩

theorem customMakeCoordsInitial_cons (d0 : ℚ) (rest : List ℚ)
    (hpos : ∀ d ∈ d0 :: rest, 0 < d) (c s y : ℚ) (ys : List ℚ)
    (hclip : clippedCoords (d0 :: rest) c s = y :: ys) :
    customMakeCoordsInitial (d0 :: rest) hpos c s =
      some (extendLow d0 (c - s / 2) (hpos d0 (by simp)) y ++ (y :: ys) ++
        extendHigh ((d0 :: rest).getLast (by simp)) (c + s / 2)
          (hpos _ (List.getLast_mem _)) ((y :: ys).getLast (by simp))) := by
  simp only [customMakeCoordsInitial]
  rw [hclip]

theorem getLastD_append (A B : List ℚ) (d : ℚ) :
    (A ++ B).getLastD d = B.getLastD (A.getLastD d) := by
  cases B with
  | nil => simp
  | cons b l =>
    rw [getLastD_append_cons]
    simp only [List.getLastD_cons]

/-- C1 counterexample: two concrete Custom inputs refuting the coverage
claim.  With `dl = [10]`, `center = 0`, `size = 2` no boundary of the
centered sequence survives the clipping, and the computation produces no
boundary sequence at all (the source raises `IndexError`).  With
`dl = [2, 2]`, `center = 0`, `size = 5` the result is `[-2, 0, 2]`, whose
first boundary `-2` does not reach `center - size/2 = -5/2`. -/
theorem custom_coverage_counterexample :
    customMakeCoordsInitial [10] (by norm_num) 0 2 = none ∧
    customMakeCoordsInitial [2, 2] (by norm_num) 0 5 = some [-2, 0, 2] ∧
    ¬((-2 : ℚ) ≤ 0 - 5 / 2) := by
  refine ⟨?_, ?_, by norm_num⟩
  · have hclip : clippedCoords [10] 0 2 = [] := by
      norm_num [clippedCoords, List.scanl, List.filter_cons]
    simp [customMakeCoordsInitial, hclip]
  · have hclip : clippedCoords [2, 2] 0 5 = [-2, 0, 2] := by
      norm_num [clippedCoords, List.scanl, List.filter_cons]
    rw [customMakeCoordsInitial_cons 2 [2] (by norm_num) 0 5 (-2) [0, 2] hclip]
    simp only [show ((2 : ℚ) :: [2]).getLast (by simp) = 2 from rfl,
      show ((-2 : ℚ) :: [0, 2]).getLast (by simp) = 2 from rfl]
    rw [extendLow, if_neg (by norm_num), extendHigh, if_neg (by norm_num)]
    simp

/-- C1 amended: for a Custom strategy with positive steps, whenever the
initial-coords computation returns a boundary sequence (i.e. the clipped
centered sequence is non-empty), that sequence lies inside
`[center - size/2, center + size/2]`, reaches within `dl[0]` of the low
edge and within `dl[-1]` of the high edge (rather than covering the
interval), and all boundaries beyond the clipped cumulative sequence are
obtained only by repeatedly subtracting `dl[0]` at the low end and adding
`dl[-1]` at the high end. -/
theorem custom_coords_spec (dl : List ℚ) (hpos : ∀ d ∈ dl, 0 < d)
    (c s : ℚ) (coords : List ℚ)
    (hres : customMakeCoordsInitial dl hpos c s = some coords) :
    coords ≠ [] ∧
    (∀ z ∈ coords, c - s / 2 ≤ z ∧ z ≤ c + s / 2) ∧
    coords.headD 0 - dl.headD 0 < c - s / 2 ∧
    c + s / 2 < coords.getLastD 0 + dl.getLastD 0 ∧
    ∃ y : ℚ, ∃ ys : List ℚ, clippedCoords dl c s = y :: ys ∧
      ∃ nl nh : ℕ,
        coords =
          ((List.range nl).map
            (fun i : ℕ => y - ((i : ℚ) + 1) * dl.headD 0)).reverse
          ++ (y :: ys) ++
          (List.range nh).map
            (fun i : ℕ =>
              (y :: ys).getLastD 0 + ((i : ℚ) + 1) * dl.getLastD 0) := by
  cases dl with
  | nil => simp [customMakeCoordsInitial] at hres
  | cons d0 rest =>
    cases hclip : clippedCoords (d0 :: rest) c s with
    | nil => simp [customMakeCoordsInitial, hclip] at hres
    | cons y ys =>
      have hd0 : 0 < d0 := hpos d0 (by simp)
      have hdN : 0 < (d0 :: rest).getLast (by simp) :=
        hpos _ (List.getLast_mem (by simp))
      have hcoords : coords =
          extendLow d0 (c - s / 2) hd0 y ++ (y :: ys) ++
            extendHigh ((d0 :: rest).getLast (by simp)) (c + s / 2) hdN
              ((y :: ys).getLast (by simp)) := by
        rw [customMakeCoordsInitial_cons d0 rest hpos c s y ys hclip] at hres
        exact (Option.some.inj hres).symm
      set dlN := (d0 :: rest).getLast (by simp) with hdlN
      set z := (y :: ys).getLast (by simp) with hzdef
      have hzmem : z ∈ y :: ys := by
        rw [hzdef]
        exact List.getLast_mem (by simp)
      have hymem : y ∈ clippedCoords (d0 :: rest) c s := by
        rw [hclip]
        simp
      have hzmemc : z ∈ clippedCoords (d0 :: rest) c s := by
        rw [hclip]
        exact hzmem
      have hy := clippedCoords_mem (d0 :: rest) c s y hymem
      have hz := clippedCoords_mem (d0 :: rest) c s z hzmemc
      have hzv : ys.getLastD y = z := by
        rw [hzdef]
        exact (List.getLast_eq_getLastD y ys (by simp)).symm
      have hdlv : rest.getLastD d0 = dlN := by
        rw [hdlN]
        exact (List.getLast_eq_getLastD d0 rest (by simp)).symm
      refine ⟨by simp [hcoords], ?_, ?_, ?_, ?_⟩
      · intro w hw
        rw [hcoords] at hw
        rcases List.mem_append.mp hw with hw | hw
        · rcases List.mem_append.mp hw with hw | hw
          · obtain ⟨h1, h2⟩ := extendLow_mem d0 (c - s / 2) hd0 y w hw
            exact ⟨h1, le_trans (le_of_lt h2) hy.2⟩
          · exact clippedCoords_mem (d0 :: rest) c s w (by rw [hclip]; exact hw)
        · obtain ⟨h1, h2⟩ := extendHigh_mem dlN (c + s / 2) hdN z w hw
          exact ⟨le_trans hz.1 (le_of_lt h1), h2⟩
      · rw [hcoords, List.append_assoc, List.cons_append, headD_append_cons]
        simp only [List.headD_cons]
        exact extendLow_headD d0 (c - s / 2) hd0 y
      · rw [hcoords, getLastD_append, getLastD_append_cons]
        simp only [List.getLastD_cons]
        rw [hzv, hdlv]
        exact extendHigh_getLastD dlN (c + s / 2) hdN z
      · refine ⟨y, ys, rfl, ?_⟩
        obtain ⟨nl, hnl⟩ := extendLow_eq d0 (c - s / 2) hd0 y
        obtain ⟨nh, hnh⟩ := extendHigh_eq dlN (c + s / 2) hdN z
        refine ⟨nl, nh, ?_⟩
        rw [hcoords, hnl, hnh]
        simp only [List.headD_cons, List.getLastD_cons]
        rw [hzv, hdlv]

/-- C1 witness: `dl = [1]`, `center = 0`, `size = 3` produces
`[-3/2, -1/2, 1/2, 3/2]`, whose first boundary is within `dl[0] = 1` of
the low edge `-3/2`. -/
theorem custom_coords_spec_witness :
    customMakeCoordsInitial [1] (by norm_num) 0 3 =
      some [-3/2, -1/2, 1/2, 3/2] ∧
    ([-3/2, -1/2, 1/2, 3/2] : List ℚ).headD 0 - ([1] : List ℚ).headD 0 <
      0 - 3 / 2 := by
  have hclip : clippedCoords [1] 0 3 = [-1/2, 1/2] := by
    norm_num [clippedCoords, List.scanl, List.filter_cons]
  have hres : customMakeCoordsInitial [1] (by norm_num) 0 3 =
      some [-3/2, -1/2, 1/2, 3/2] := by
    rw [customMakeCoordsInitial_cons 1 [] (by norm_num) 0 3 (-1/2) [1/2] hclip]
    simp only [show ((1 : ℚ) :: ([] : List ℚ)).getLast (by simp) = 1 from rfl,
      show ((-1/2 : ℚ) :: [1/2]).getLast (by simp) = 1/2 from rfl]
    rw [extendLow, if_pos (by norm_num), extendLow, if_neg (by norm_num)]
    rw [extendHigh, if_pos (by norm_num), extendHigh, if_neg (by norm_num)]
    norm_num
  exact ⟨hres,
    (custom_coords_spec [1] (by norm_num) 0 3 [-3/2, -1/2, 1/2, 3/2]
      hres).2.2.1⟩

/-- C10: for a Custom strategy with strictly positive steps and a non-empty
clipped centered sequence, the two edge-repetition loops terminate, adding
exactly `⌊(first - bound_min)/dl[0]⌋` boundaries at the low end and
`⌊(bound_max - last)/dl[-1]⌋` at the high end. -/
theorem custom_loops_terminate (dl : List ℚ) (hpos : ∀ d ∈ dl, 0 < d)
    (hdl : dl ≠ []) (c s : ℚ) (y : ℚ) (ys : List ℚ)
    (hclip : clippedCoords dl c s = y :: ys) :
    ∃ coords : List ℚ, customMakeCoordsInitial dl hpos c s = some coords ∧
      coords.length = (y :: ys).length +
        (⌊(y - (c - s / 2)) / dl.headD 0⌋).toNat +
        (⌊((c + s / 2) - (y :: ys).getLastD 0) / dl.getLastD 0⌋).toNat := by
  cases dl with
  | nil => exact absurd rfl hdl
  | cons d0 rest =>
    have hd0 : 0 < d0 := hpos d0 (by simp)
    have hdN : 0 < (d0 :: rest).getLast (by simp) :=
      hpos _ (List.getLast_mem (by simp))
    set dlN := (d0 :: rest).getLast (by simp) with hdlN
    set z := (y :: ys).getLast (by simp) with hzdef
    have hzmem : z ∈ y :: ys := by
      rw [hzdef]
      exact List.getLast_mem (by simp)
    have hymem : y ∈ clippedCoords (d0 :: rest) c s := by
      rw [hclip]
      simp
    have hzmemc : z ∈ clippedCoords (d0 :: rest) c s := by
      rw [hclip]
      exact hzmem
    have hy := clippedCoords_mem (d0 :: rest) c s y hymem
    have hz := clippedCoords_mem (d0 :: rest) c s z hzmemc
    have hzv : ys.getLastD y = z := by
      rw [hzdef]
      exact (List.getLast_eq_getLastD y ys (by simp)).symm
    have hdlv : rest.getLastD d0 = dlN := by
      rw [hdlN]
      exact (List.getLast_eq_getLastD d0 rest (by simp)).symm
    refine ⟨extendLow d0 (c - s / 2) hd0 y ++ (y :: ys) ++
        extendHigh dlN (c + s / 2) hdN z, ?_, ?_⟩
    · exact customMakeCoordsInitial_cons d0 rest hpos c s y ys hclip
    · rw [List.length_append, List.length_append,
        extendLow_length d0 (c - s / 2) hd0 y hy.1,
        extendHigh_length dlN (c + s / 2) hdN z hz.2]
      simp only [List.headD_cons, List.getLastD_cons]
      rw [hzv, hdlv]
      omega

/-- C10 witness: `dl = [1]`, `center = 0`, `size = 3`: the clipped sequence
`[-1/2, 1/2]` is extended by exactly one boundary on each side. -/
theorem custom_loops_terminate_witness :
    ([1] : List ℚ) ≠ [] ∧ clippedCoords [1] 0 3 = [-1/2, 1/2] ∧
    ∃ coords : List ℚ,
      customMakeCoordsInitial [1] (by norm_num) 0 3 = some coords ∧
      coords.length = ((-1/2 : ℚ) :: [1/2]).length +
        (⌊((-1/2 : ℚ) - (0 - 3 / 2)) / ([1] : List ℚ).headD 0⌋).toNat +
        (⌊((0 + 3 / 2) - ((-1/2 : ℚ) :: [1/2]).getLastD 0) /
          ([1] : List ℚ).getLastD 0⌋).toNat := by
  have hclip : clippedCoords [1] 0 3 = [-1/2, 1/2] := by
    norm_num [clippedCoords, List.scanl, List.filter_cons]
  exact ⟨by simp, hclip,
    custom_loops_terminate [1] (by norm_num) (by simp) 0 3 (-1/2) [1/2] hclip⟩

/-- C4 witness: counts `(2, 3)` on `[0, 1, 2]` add exactly `2 + 3`
boundaries. -/
theorem addPmlToBounds_spec_witness :
    2 ≤ ([0, 1, 2] : List ℚ).length ∧
    (addPmlToBounds (2, 3) ([0, 1, 2] : List ℚ)).length =
      2 + ([0, 1, 2] : List ℚ).length + 3 :=
  ⟨by norm_num, ((addPmlToBounds_spec 2 3 [0, 1, 2]).1 (by norm_num)).1⟩
